import Mathlib

/-!
Verification development for the duplicate-detection engine of the
`calibre_plugins` CLI (files `cli/duplicates/matching.py` and
`cli/duplicates/finder.py`).

Python strings are embedded as `List Char` (wrapped in `String` at function
boundaries), Python sets of book ids as `Finset ℕ`, and Python dicts that
preserve insertion order as association lists.  Pure Python functions become
Lean functions with the same names.  Python's `str.upper`/`str.lower` are
modelled by the ASCII `Char.toUpper`/`Char.toLower` maps, and the standard
library's Unicode NFD decomposition / combining-mark category used by
`decode_unicode` is modelled by an explicit canonical-decomposition table
(see `nfdDecompose`).
-/

/-! ### Python string primitives -/

/-- The characters matched by Python's `\s` regex class and stripped by
`str.strip()` (for the ASCII range handled by this model). -/
def pySpaceChars : List Char := [' ', '\t', '\n', '\x0b', '\x0c', '\r']

def isPySpace (c : Char) : Bool := pySpaceChars.contains c

/-- Python `str.strip()`. -/
def pyStrip (s : List Char) : List Char :=
  ((s.dropWhile isPySpace).reverse.dropWhile isPySpace).reverse

/-- Python `str.lower()` (ASCII model). -/
def pyLower (s : List Char) : List Char := s.map Char.toLower

/-- Python `str.upper()` (ASCII model). -/
def pyUpper (s : List Char) : List Char := s.map Char.toUpper

/-- Python `str.split(sep)` for a one-character separator: keeps empty pieces. -/
def splitOnChar (sep : Char) : List Char → List (List Char)
  | [] => [[]]
  | c :: rest =>
    match splitOnChar sep rest with
    | [] => [[]]
    | t :: ts => if c = sep then [] :: t :: ts else (c :: t) :: ts

/-- Helper for `pySplit`: accumulates the current (reversed) token. -/
def pySplitAux : List Char → List Char → List (List Char)
  | cur, [] => if cur = [] then [] else [cur.reverse]
  | cur, c :: rest =>
    if isPySpace c then
      if cur = [] then pySplitAux [] rest else cur.reverse :: pySplitAux [] rest
    else pySplitAux (c :: cur) rest

/-- Python `str.split()` with no argument: splits on whitespace runs and
drops empty pieces. -/
def pySplit (s : List Char) : List (List Char) := pySplitAux [] s

/-- Helper for `collapseWs`: the flag records whether the previous character
was whitespace (already emitted as a single space). -/
def collapseWsAux : Bool → List Char → List Char
  | _, [] => []
  | inWs, c :: rest =>
    if isPySpace c then
      if inWs then collapseWsAux true rest else ' ' :: collapseWsAux true rest
    else c :: collapseWsAux false rest

/-- The regex substitution `\s+` → `' '`: collapse every whitespace run to a
single space. -/
def collapseWs (s : List Char) : List Char := collapseWsAux false s

/-- Python `sep.join(tokens)`. -/
def joinWith (sep : List Char) : List (List Char) → List Char
  | [] => []
  | [t] => t
  | t :: ts => t ++ sep ++ joinWith sep ts

/-- Lexicographic comparison of Python strings (code-point order), as used by
`sorted` on `str` keys. -/
def strLe : List Char → List Char → Bool
  | [], _ => true
  | _ :: _, [] => false
  | a :: as, b :: bs =>
    if a.toNat < b.toNat then true
    else if b.toNat < a.toNat then false
    else strLe as bs

/-- Lexicographic comparison of Python lists of ints, as used by `list.sort()`
on `finder._partition_using_exemptions`'s result. -/
def lexLe : List ℕ → List ℕ → Bool
  | [], _ => true
  | _ :: _, [] => false
  | a :: as, b :: bs =>
    if a < b then true
    else if b < a then false
    else lexLe as bs

/-! ### `matching.decode_unicode`

The source calls `unicodedata.normalize('NFD', text)` and then discards the
characters whose Unicode general category is `Mn`.  The stdlib's Unicode
tables are modelled by a concrete canonical-decomposition table covering the
characters exercised by the spec (all decompositions in the real NFD table
are themselves fully decomposed, which is the property the table reproduces;
canonical reordering is the identity on the modelled strings). -/

/-- Canonical (NFD) decomposition table model: accented Latin letters map to
base letter + combining mark, everything else to itself. -/
def nfdDecompose (c : Char) : List Char :=
  if c = 'é' then ['e', '́']
  else if c = 'ë' then ['e', '̈']
  else if c = 'ï' then ['i', '̈']
  else if c = 'É' then ['E', '́']
  else if c = 'à' then ['a', '̀']
  else [c]

/-- Unicode general category test "is a non-spacing combining mark" (`Mn`),
for the marks produced by `nfdDecompose`. -/
def isMn (c : Char) : Bool := c = '̀' || c = '́' || c = '̈'

/-- `matching.decode_unicode`: NFD-decompose, then drop category-`Mn`
characters; empty input is returned unchanged. -/
def decode_unicode (text : List Char) : List Char :=
  if text = [] then text
  else (text.flatMap nfdDecompose).filter (fun c => !(isMn c))

/-! ### `matching.soundex` -/

/-- The soundex digit table for `A`..`Z` (`matching.py` line 191). -/
def soundexDigits : List Char := "01230120022455012623010202".data

def isUpperAZ (c : Char) : Bool :=
  decide ('A'.toNat ≤ c.toNat) && decide (c.toNat ≤ 'Z'.toNat)

def soundexDigit (c : Char) : Char := soundexDigits.getD (c.toNat - 'A'.toNat) '0'

/-- The character walk of `matching.soundex`: state is the remembered first
alphabetic character and the digit string built so far (consecutive duplicate
digits skipped). -/
def soundexLoop : List Char → Option Char → List Char → Option Char × List Char
  | [], fc, sndx => (fc, sndx)
  | c :: rest, fc, sndx =>
    if isUpperAZ c then
      let fc2 := match fc with | none => some c | some f => some f
      let sndx2 := if sndx.getLast? = some (soundexDigit c) then sndx else sndx ++ [soundexDigit c]
      soundexLoop rest fc2 sndx2
    else soundexLoop rest fc sndx

/-- `matching.soundex(name, length)`.  The Python default for `length` is 4;
call sites that rely on the default pass 4 explicitly here. -/
def soundex (name : String) (len : ℕ) : String :=
  let st := soundexLoop (pyUpper name.data) none []
  let sndx := (match st.1 with | none => [] | some c => [c]) ++ st.2.drop 1
  let sndx := sndx.filter (fun c => c ≠ '0')
  String.mk ((sndx ++ List.replicate len '0').take len)

/-! The soundex procedure as §4.3 of the spec words it, pass by pass:
uppercase, map the A–Z characters through the table, collapse consecutive
duplicate digits, replace the first digit with the first alphabetic
character, delete the zeros, right-pad and truncate. -/

/-- Collapse the consecutive duplicates that follow a character `l`. -/
def collapseAfter (l : Char) : List Char → List Char
  | [] => []
  | d :: ds => if d = l then collapseAfter l ds else d :: collapseAfter d ds

/-- Collapse consecutive duplicate characters. -/
def collapseDups : List Char → List Char
  | [] => []
  | d :: ds => d :: collapseAfter d ds

/-- The spec's soundex procedure (§4.3), stated as successive passes. -/
def soundexSpec (name : String) (len : ℕ) : String :=
  let letters := (pyUpper name.data).filter isUpperAZ
  let digits := collapseDups (letters.map soundexDigit)
  let replaced := match letters with
    | [] => []
    | c :: _ => c :: digits.drop 1
  let cleaned := replaced.filter (fun c => c ≠ '0')
  String.mk ((cleaned ++ List.replicate len '0').take len)

/-! ### Title matching (`matching.py`) -/

/-- The character class `[\[\](){}<>'";,:#]` of `fuzzy_it`'s first pattern. -/
def fuzzyPunctChars : List Char :=
  ['[', ']', '(', ')', Char.ofNat 123, Char.ofNat 125, '<', '>',
   Char.ofNat 39, '"', ';', ',', ':', '#']

/-- Helper for `stripLeadingArticle`: after a candidate article, require at
least one whitespace character and drop the whole (greedy) whitespace run. -/
def dropArticleAfter : List Char → Option (List Char)
  | [] => none
  | c :: rest => if isPySpace c then some (rest.dropWhile isPySpace) else none

/-- The regex substitution `^(a|the|an)\s+` → `''` (alternatives tried left to
right, as`re` does; the subject is already lowercased by `fuzzy_it`). -/
def stripLeadingArticle (s : List Char) : List Char :=
  match (if s.take 1 = ['a'] then dropArticleAfter (s.drop 1) else none) with
  | some r => r
  | none =>
    match (if s.take 3 = ['t', 'h', 'e'] then dropArticleAfter (s.drop 3) else none) with
    | some r => r
    | none =>
      match (if s.take 2 = ['a', 'n'] then dropArticleAfter (s.drop 2) else none) with
      | some r => r
      | none => s

/-- `matching.fuzzy_it` with its default pattern list: strip+lower, then the
four substitutions in order (punctuation removal, leading-article removal,
`[-._]`→space, whitespace collapse), then strip. -/
def fuzzy_it (text : List Char) : List Char :=
  let t := pyLower (pyStrip text)
  let t := t.filter (fun c => !(fuzzyPunctChars.contains c))
  let t := stripLeadingArticle t
  let t := t.map (fun c => if c = '-' || c = '.' || c = '_' then ' ' else c)
  let t := collapseWs t
  pyStrip t

/-- `matching.identical_title_match`.  A `lang` of `""` models the Python
`None`/empty falsy default. -/
def identical_title_match (title : String) (lang : String) : String :=
  if lang ≠ "" then lang ++ String.mk (pyLower title.data)
  else String.mk (pyLower title.data)

/-- `matching.similar_title_match`. -/
def similar_title_match (title : String) (lang : String) : String :=
  let result := fuzzy_it (decode_unicode title.data)
  if lang ≠ "" then lang ++ String.mk result else String.mk result

/-! ### Author matching (`matching.py`) -/

/-- The regex substitution `,([^\s])` → `', \1'` of `get_author_tokens`. -/
def commaNoSpaceFix : List Char → List Char
  | ',' :: c :: rest =>
    if isPySpace c then ',' :: commaNoSpaceFix (c :: rest)
    else ',' :: ' ' :: c :: commaNoSpaceFix rest
  | c :: rest => c :: commaNoSpaceFix rest
  | [] => []

/-- The class `[-+.:;]` replaced by a space in the token pipelines. -/
def tokenReplaceChars : List Char := ['-', '+', '.', ':', ';']

/-- The class `[,!@#$%^&*(){}`~"\s\[\]/]` removed per token by
`get_author_tokens` (whitespace is handled by `isPySpace`; the apostrophe is
deliberately kept). -/
def authorRemoveChars : List Char :=
  [',', '!', '@', '#', '$', '%', '^', '&', '*', '(', ')', Char.ofNat 123,
   Char.ofNat 125, Char.ofNat 96, '~', '"', '[', ']', '/']

/-- `matching.ignore_author_words`. -/
def ignore_author_words : List (List Char) :=
  ["von".data, "van".data, "jr".data, "sr".data, "i".data, "ii".data,
   "iii".data, "second".data, "third".data, "md".data, "phd".data]

/-- `matching.get_author_tokens` (with `decode_non_ascii=True`, its default at
every call site in the repository). -/
def get_author_tokens (author : String) (strip_initials : Bool) : List (List Char) :=
  if author = "" then []
  else
    let au := (commaNoSpaceFix author.data).map
      (fun c => if tokenReplaceChars.contains c then ' ' else c)
    let au := decode_unicode au
    let parts := pySplit au
    let parts := if au.contains ',' then parts.drop 1 ++ parts.take 1 else parts
    let min_length : ℕ := if strip_initials then 1 else 0
    (parts.map (fun tok =>
        pyStrip (tok.filter (fun c => !(authorRemoveChars.contains c) && !(isPySpace c))))).filterMap
      (fun tok =>
        if min_length < tok.length ∧ ¬ ignore_author_words.contains (pyLower tok) then
          some (pyLower tok)
        else none)

/-- `matching.identical_authors_match`. -/
def identical_authors_match (author : String) : String × Option String :=
  (String.mk (pyLower author.data), none)

/-- `matching.similar_authors_match`: hash of the strip-initials tokens, plus
the rotate-left-by-one hash when there are at least two tokens. -/
def similar_authors_match (author : String) : String × Option String :=
  let author_tokens := get_author_tokens author true
  let ahash := String.mk (joinWith [' '] author_tokens)
  if 1 < author_tokens.length then
    (ahash, some (String.mk (joinWith [' '] (author_tokens.drop 1 ++ author_tokens.take 1))))
  else (ahash, none)

/-! ### Series / publisher / tag matching (`matching.py`) -/

/-- The per-token removal class of `get_series_tokens`, `get_publisher_tokens`
and `get_tag_tokens`: the author class plus the apostrophe. -/
def variationRemoveChars : List Char := authorRemoveChars ++ [Char.ofNat 39]

/-- Shared shape of `get_series_tokens` / `get_publisher_tokens` /
`get_tag_tokens`: replace `[-+.:;]` by spaces, decode, split, strip each
token of `variationRemoveChars`, drop empties and the field's stop words. -/
def variationTokens (ignore_words : List (List Char)) (s : String) : List (List Char) :=
  if s = "" then []
  else
    let t := s.data.map (fun c => if tokenReplaceChars.contains c then ' ' else c)
    let t := decode_unicode t
    (pySplit t).map (fun tok =>
        pyStrip (tok.filter (fun c => !(variationRemoveChars.contains c) && !(isPySpace c))))
      |>.filterMap
      (fun tok =>
        if 0 < tok.length ∧ ¬ ignore_words.contains (pyLower tok) then
          some (pyLower tok)
        else none)

/-- `matching.get_series_tokens` (stop words `the`, `a`, `and`). -/
def get_series_tokens (series : String) : List (List Char) :=
  variationTokens ["the".data, "a".data, "and".data] series

/-- `matching.get_publisher_tokens`. -/
def get_publisher_tokens (publisher : String) : List (List Char) :=
  variationTokens
    ["the".data, "inc".data, "ltd".data, "limited".data, "llc".data,
     "co".data, "pty".data, "usa".data, "uk".data] publisher

/-- `matching.get_tag_tokens` (stop words `the`, `and`, `a`). -/
def get_tag_tokens (tag : String) : List (List Char) :=
  variationTokens ["the".data, "and".data, "a".data] tag

/-- Module-level soundex length defaults (`matching.py` lines 31-35). -/
def title_soundex_length : ℕ := 6

def author_soundex_length : ℕ := 8

def publisher_soundex_length : ℕ := 6

def series_soundex_length : ℕ := 6

def tags_soundex_length : ℕ := 4

/-- `matching.soundex_series_match`: note the `≤ 1` token branch calls
`soundex` with its Python default length 4. -/
def soundex_series_match (series : String) : String :=
  let series_tokens := get_series_tokens series
  if series_tokens.length ≤ 1 then soundex (String.mk (joinWith [] series_tokens)) 4
  else soundex (String.mk (joinWith [] series_tokens)) series_soundex_length

/-- `matching.soundex_publisher_match`. -/
def soundex_publisher_match (publisher : String) : String :=
  let publisher_tokens := get_publisher_tokens publisher
  if publisher_tokens.length ≤ 1 then soundex (String.mk (joinWith [] publisher_tokens)) 4
  else soundex (String.mk (joinWith [] publisher_tokens)) publisher_soundex_length

/-- `matching.soundex_tags_match`: the multi-token branch of the source calls
`soundex(''.join(tag_tokens), publisher_soundex_length)` — the publisher
length, not the tags length (`matching.py` line 577). -/
def soundex_tags_match (tag : String) : String :=
  let tag_tokens := get_tag_tokens tag
  if tag_tokens.length ≤ 1 then soundex (String.mk (joinWith [] tag_tokens)) 4
  else soundex (String.mk (joinWith [] tag_tokens)) publisher_soundex_length

/-! ### `finder.py`: data model -/

/-- `finder.ExemptionsMap`, wrapping an (optional) dict from book id to the
set of ids it must not be grouped with.  `dom` is the dict's key set (the
`__contains__` test) and `sets` is `merge_sets`, which returns the empty set
for ids outside the dict — recorded by `sets_dom`. -/
structure ExemptionsMap where
  dom : Finset ℕ
  sets : ℕ → Finset ℕ
  sets_dom : ∀ d, d ∉ dom → sets d = ∅

/-- An `ExemptionsMap()` built with no exemptions dict. -/
def emptyExemptions : ExemptionsMap where
  dom := ∅
  sets := fun _ => ∅
  sets_dom := fun _ _ => rfl

/-- `finder.DuplicateGroup`. -/
structure DuplicateGroup where
  group_id : ℕ
  book_ids : List ℕ
  match_key : String
deriving DecidableEq, Repr

/-- The observable, read-only library-store interface the title/author search
consumes (`db.all_ids`, `db.title`, `db.authors`, `db.languages`).  Python's
falsy empty/`None` results are modelled by `""`. -/
structure Db where
  all_ids : List ℕ
  title : ℕ → String
  authors : ℕ → String
  languages : ℕ → String

/-- `matching.authors_to_list`: split the stored author string on `,`, strip
each part and turn the embedded `|` separators back into commas. -/
def authorsToList (db : Db) (book_id : ℕ) : List String :=
  let authors := db.authors book_id
  if authors ≠ "" then
    (splitOnChar ',' authors.data).map
      (fun a => String.mk ((pyStrip a).map (fun c => if c = '|' then ',' else c)))
  else []

/-! ### `finder._partition_using_exemptions`

The Python loop iterates `for nd in ndm_entry` over a *set*; the traversal
order CPython happens to use is abstracted into an `order` parameter (any
enumeration of the set), with `setOrder` (ascending) as the canonical
instance.  The `enumerate(results)` loop also visits the partitions appended
during the same iteration, but `one_dup` was removed from every appended
partition, so those visits are no-ops and are not materialised here. -/

/-- The ascending list of elements of a finite set of ids — the value of
Python's `sorted(list(s))`. -/
def sortedIds (s : Finset ℕ) : List ℕ :=
  (List.range (s.sup id + 1)).filter (fun n => decide (n ∈ s))

/-- Canonical set-enumeration order. -/
def setOrder (s : Finset ℕ) : List ℕ := sortedIds s

/-- A valid model of Python's set iteration order: any enumeration of the
set's elements. -/
def validOrder (order : Finset ℕ → List ℕ) : Prop :=
  ∀ s : Finset ℕ, List.Perm (order s) (sortedIds s)

/-- The sibling partitions appended for entry `res` while processing
`one_dup`: one per `nd ∈ ndm_entry` with `nd > one_dup` and `nd ∈ res`,
based on the pre-subtraction value of `res`. -/
def siblingAppends (order : Finset ℕ → List ℕ) (one_dup : ℕ) (ndm_entry res : Finset ℕ) :
    List (Finset ℕ × Option ℕ) :=
  ((order ndm_entry).filter (fun nd => decide (one_dup < nd) && decide (nd ∈ res))).map
    (fun nd => (((res \ ndm_entry) \ {one_dup}) ∪ {nd}, some nd))

/-- Processing of one `(partition, pivot)` entry for `one_dup`: returns the
updated entry and the sibling partitions to append. -/
def processEntry (order : Finset ℕ → List ℕ) (one_dup : ℕ) (ndm_entry : Finset ℕ)
    (e : Finset ℕ × Option ℕ) : (Finset ℕ × Option ℕ) × List (Finset ℕ × Option ℕ) :=
  if one_dup ∈ e.1 then
    if e.2 = some one_dup then (((e.1 \ ndm_entry) ∪ {one_dup}, e.2), [])
    else (((e.1 \ ndm_entry) ∪ {one_dup}, e.2), siblingAppends order one_dup ndm_entry e.1)
  else (e, [])

/-- One iteration of the outer `for one_dup in data_items` loop: entries are
updated in place and all appended siblings end up after them. -/
def processDup (order : Finset ℕ → List ℕ) (E : ExemptionsMap)
    (entries : List (Finset ℕ × Option ℕ)) (one_dup : ℕ) : List (Finset ℕ × Option ℕ) :=
  if one_dup ∈ E.dom then
    entries.map (fun e => (processEntry order one_dup (E.sets one_dup) e).1) ++
      entries.flatMap (fun e => (processEntry order one_dup (E.sets one_dup) e).2)
  else entries

/-- The partitioner's loop state after the whole `for one_dup in data_items`
loop, starting from `results = [set(data_items)]`, `pivots = [None]`. -/
def partitionResults (order : Finset ℕ → List ℕ) (E : ExemptionsMap) (ds : List ℕ) :
    List (Finset ℕ × Option ℕ) :=
  ds.foldl (processDup order E) [(ds.toFinset, none)]

/-- `finder._partition_using_exemptions`, parametric in the set-iteration
order: sort the input, run the loop, keep the partitions of more than one
member as sorted lists, and sort the outer list lexicographically. -/
def partitionUsingExemptionsWith (order : Finset ℕ → List ℕ)
    (data_items : List ℕ) (E : ExemptionsMap) : List (List ℕ) :=
  (((partitionResults order E (data_items.insertionSort (· ≤ ·))).filter
      (fun e => decide (1 < e.1.card))).map (fun e => sortedIds e.1)).insertionSort
    (fun a b => lexLe a b = true)

/-- `finder._partition_using_exemptions` with the canonical iteration order. -/
def partitionUsingExemptions (data_items : List ℕ) (E : ExemptionsMap) : List (List ℕ) :=
  partitionUsingExemptionsWith setOrder data_items E

/-! ### `finder._clean_dup_groups` -/

/-- The `for…else` retention loop: a set is kept iff no later set in the
size-ascending list contains it. -/
def cleanAux : List (Finset ℕ) → List (Finset ℕ)
  | [] => []
  | a :: rest => if rest.any (fun b => decide (a ⊆ b)) then cleanAux rest else a :: cleanAux rest

/-- `finder._clean_dup_groups`: values of the candidates map, sorted by size
ascending (Python's stable `sort(key=len)`), subsets of later sets removed. -/
def cleanDupGroups (m : List (String × Finset ℕ)) : List (Finset ℕ) :=
  cleanAux ((m.map (fun e => e.2)).insertionSort (fun a b => a.card ≤ b.card))

/-! ### Candidate map construction (`finder._find_title_author_candidates`)

The `defaultdict(set)` is modelled as an association list in key
first-insertion order, which is what iteration over a Python dict yields. -/

/-- `candidates_map[key].add(book_id)` on a `defaultdict(set)`. -/
def addCandidate (m : List (String × Finset ℕ)) (key : String) (book_id : ℕ) :
    List (String × Finset ℕ) :=
  if m.any (fun e => e.1 = key) then
    m.map (fun e => if e.1 = key then (e.1, insert book_id e.2) else e)
  else m ++ [(key, {book_id})]

/-- The title hash of a book: the policy function applied to the stored
title and (when `include_languages`) the stored language. -/
def candidateKey (db : Db) (titleFn : String → String → String)
    (includeLanguages : Bool) (book_id : ℕ) : String :=
  titleFn (db.title book_id) (if includeLanguages then db.languages book_id else "")

/-- The two `candidates_map` inserts done for one author of one book: under
`title_hash + author_hash`, and also under `title_hash + rev_author_hash`
when the reverse hash is non-null, non-empty and different. -/
def addAuthorKeys (title_hash : String) (author_fn : String → String × Option String)
    (book_id : ℕ) (m : List (String × Finset ℕ)) (author : String) :
    List (String × Finset ℕ) :=
  match (author_fn author).2 with
  | some rev =>
    if rev ≠ "" ∧ rev ≠ (author_fn author).1 then
      addCandidate (addCandidate m (title_hash ++ (author_fn author).1) book_id)
        (title_hash ++ rev) book_id
    else addCandidate m (title_hash ++ (author_fn author).1) book_id
  | none => addCandidate m (title_hash ++ (author_fn author).1) book_id

/-- The body of the per-book loop of `_find_title_author_candidates`.
`titleFn` is the policy function picked by `get_title_algorithm_fn` (for
example `identical_title_match` or `similar_title_match`); `authorFn` is the
one picked by `get_author_algorithm_fn`, or `none` for the `ignore` policy.
Books with a falsy title are skipped. -/
def candidateStep (db : Db) (titleFn : String → String → String)
    (authorFn : Option (String → String × Option String)) (includeLanguages : Bool)
    (m : List (String × Finset ℕ)) (book_id : ℕ) : List (String × Finset ℕ) :=
  if db.title book_id = "" then m
  else
    match authorFn with
    | some author_fn =>
      if authorsToList db book_id = [] then
        addCandidate m (candidateKey db titleFn includeLanguages book_id) book_id
      else
        (authorsToList db book_id).foldl
          (addAuthorKeys (candidateKey db titleFn includeLanguages book_id) author_fn book_id) m
    | none => addCandidate m (candidateKey db titleFn includeLanguages book_id) book_id

/-- `finder._find_title_author_candidates`. -/
def findTitleAuthorCandidates (db : Db) (ids : List ℕ) (titleFn : String → String → String)
    (authorFn : Option (String → String × Option String)) (includeLanguages : Bool) :
    List (String × Finset ℕ) :=
  ids.foldl (candidateStep db titleFn authorFn includeLanguages) []

/-! ### Orchestration (`finder.find_duplicates`, title/author mode) -/

/-- `finder._shrink_candidates_map`: drop groups with fewer than 2 members. -/
def shrinkCandidatesMap (m : List (String × Finset ℕ)) : List (String × Finset ℕ) :=
  m.filter (fun e => decide (2 ≤ e.2.card))

/-- `finder._sort_candidate_groups`: by key ascending, or by (size, key)
descending. -/
def sortCandidateGroups (m : List (String × Finset ℕ)) (by_title : Bool) :
    List (String × Finset ℕ) :=
  if by_title then m.insertionSort (fun a b => strLe a.1.data b.1.data = true)
  else
    m.insertionSort (fun a b =>
      b.2.card < a.2.card ∨ (b.2.card = a.2.card ∧ strLe b.1.data a.1.data = true))

/-- The group-emission loop of `finder._convert_to_groups`: `group_id` is
incremented exactly when a partition of more than one member is emitted, and
the emitted ids are sorted. -/
def assignGroupIds : ℕ → List (List ℕ) → List DuplicateGroup
  | _, [] => []
  | gid, p :: rest =>
    if 1 < p.length then
      { group_id := gid + 1, book_ids := p.insertionSort (· ≤ ·), match_key := "" } ::
        assignGroupIds (gid + 1) rest
    else assignGroupIds gid rest

/-- `finder._convert_to_groups` (the `list(book_ids)` handed to the
partitioner is an arbitrary enumeration of the set, which the partitioner
immediately sorts; it is materialised here as the ascending one). -/
def convertToGroupsWith (order : Finset ℕ → List ℕ) (m : List (String × Finset ℕ))
    (E : ExemptionsMap) : List DuplicateGroup :=
  assignGroupIds 0
    ((cleanDupGroups m).flatMap (fun c => partitionUsingExemptionsWith order (sortedIds c) E))

/-- The ids examined by one run: the `book_ids` argument, defaulting to
`db.all_ids()`. -/
def candidateBookIds (db : Db) (bookIds : Option (List ℕ)) : List ℕ :=
  match bookIds with | some l => l | none => db.all_ids

/-- `finder.find_duplicates` for `search_type='title_author'` — candidate
construction, shrink, sort, subset pruning, exemption partitioning and group
assembly — parametric in the set-iteration order used by the partitioner. -/
def findDuplicatesWith (order : Finset ℕ → List ℕ) (db : Db)
    (titleFn : String → String → String) (authorFn : Option (String → String × Option String))
    (includeLanguages sortByTitle : Bool) (bookIds : Option (List ℕ)) (E : ExemptionsMap) :
    List DuplicateGroup :=
  convertToGroupsWith order
    (sortCandidateGroups
      (shrinkCandidatesMap
        (findTitleAuthorCandidates db (candidateBookIds db bookIds) titleFn authorFn
          includeLanguages))
      sortByTitle) E

/-- `finder.find_duplicates` (title/author mode) with the canonical set
iteration order. -/
def findDuplicates (db : Db) (titleFn : String → String → String)
    (authorFn : Option (String → String × Option String))
    (includeLanguages sortByTitle : Bool) (bookIds : Option (List ℕ)) (E : ExemptionsMap) :
    List DuplicateGroup :=
  findDuplicatesWith setOrder db titleFn authorFn includeLanguages sortByTitle bookIds E

/-! ### Concrete instances used by the scenario claims and witnesses -/

/-- The symmetric exemption map `{1 ↔ 3}` (one `add_exemption(1, 3)` call). -/
def exemptions13 : ExemptionsMap where
  dom := {1, 3}
  sets := fun d => if d = 1 then {3} else if d = 3 then {1} else ∅
  sets_dom := by
    intro d hd
    simp at hd
    simp [hd.1, hd.2]

/-- The scenario-S5 library: two books with the same title, the single
author of book 1 stored as `Kevin J Anderson` and that of book 2 stored as
`Anderson| Kevin J` (Calibre encodes a comma inside one author name as `|`). -/
def dbS5 : Db where
  all_ids := [1, 2]
  title := fun _ => "Book"
  authors := fun b => if b = 1 then "Kevin J Anderson" else "Anderson| Kevin J"
  languages := fun _ => ""

/-- A four-book library in which books 1 and 2 have the two authors `A` and
`B`, book 3 has author `A` and book 4 author `B`, all with the same title, so
the candidate key-groups `{1,2,3}` and `{1,2,4}` overlap without either being
a subset of the other. -/
def dbOverlap : Db where
  all_ids := [1, 2, 3, 4]
  title := fun _ => "T"
  authors := fun b =>
    if b = 1 then "A,B" else if b = 2 then "A,B" else if b = 3 then "A" else "B"
  languages := fun _ => ""

/-- C6: `_partition_using_exemptions` applied to `[1, 2, 3]` with the
symmetric exemption map `{1 ↔ 3}` returns exactly the two sorted sub-lists
`[1, 2]` and `[2, 3]`, in that order, with id 2 present in both. -/
theorem partition_scenario_s6 :
    partitionUsingExemptions [1, 2, 3] exemptions13 = [[1, 2], [2, 3]] ∧
    2 ∈ [1, 2] ∧ 2 ∈ [2, 3] := by
  refine ⟨by decide, by decide, by decide⟩

/-- C5: on a two-book library with identical titles and the single authors
`Kevin J Anderson` and `Anderson, Kevin J`, `find_duplicates` under the
`similar` title and author policies with no exemptions returns exactly one
group containing both ids, and `similar_authors_match` gives the two names a
common bucket key. -/
theorem name_order_inversion_s5 :
    findDuplicates dbS5 similar_title_match (some similar_authors_match) false true none
        emptyExemptions =
      [{ group_id := 1, book_ids := [1, 2], match_key := "" }] ∧
    (similar_authors_match "Kevin J Anderson").1 = (similar_authors_match "Anderson, Kevin J").1 := by
  refine ⟨by decide, by decide⟩

/-- C8: evaluation at the failing inputs.  `soundex_tags_match` on the
two-token tag `Science Fiction` produces the 6-character key computed with
`publisher_soundex_length`, not the 4-character key that
`tags_soundex_length` (the claimed length, whose module variable and setter
the source never reads) would give; likewise the single-token series `Angel`
is encoded with the `soundex` default length 4 rather than
`series_soundex_length`. -/
theorem soundex_tags_length_divergence :
    soundex_tags_match "Science Fiction" = soundex "sciencefiction" publisher_soundex_length ∧
    soundex_tags_match "Science Fiction" = "S52123" ∧
    soundex "sciencefiction" tags_soundex_length = "S521" ∧
    soundex_tags_match "Science Fiction" ≠ soundex "sciencefiction" tags_soundex_length ∧
    soundex_series_match "Angel" ≠ soundex "angel" series_soundex_length := by
  refine ⟨by decide, by decide, by decide, by decide, by decide⟩

/-! ### C7: the source soundex against the spec's pass-by-pass procedure -/

/-- One digit-append step of the soundex walk (append unless it repeats the
last appended digit). -/
def addDigit (sndx : List Char) (d : Char) : List Char :=
  if sndx.getLast? = some d then sndx else sndx ++ [d]

theorem soundexLoop_eq (u : List Char) : ∀ (fc : Option Char) (sndx : List Char),
    soundexLoop u fc sndx =
      ((match fc with | some f => some f | none => (u.filter isUpperAZ).head?),
        (u.filter isUpperAZ).foldl (fun s c => addDigit s (soundexDigit c)) sndx) := by
  induction u with
  | nil =>
    intro fc sndx
    cases fc <;> simp [soundexLoop]
  | cons c rest ih =>
    intro fc sndx
    by_cases hc : isUpperAZ c
    · simp only [soundexLoop, if_pos hc]
      rw [ih]
      cases fc <;> simp [List.filter_cons, hc, addDigit]
    · simp only [soundexLoop, if_neg hc]
      rw [ih]
      cases fc <;> simp [List.filter_cons, hc]

theorem foldl_addDigit_concat (ds : List Char) :
    ∀ (pre : List Char) (a : Char),
      ds.foldl addDigit (pre ++ [a]) = pre ++ [a] ++ collapseAfter a ds := by
  induction ds with
  | nil => intro pre a; simp [collapseAfter]
  | cons d ds ih =>
    intro pre a
    by_cases hd : d = a
    · subst hd
      have h1 : addDigit (pre ++ [d]) d = pre ++ [d] := by
        simp [addDigit, List.getLast?_concat]
      rw [List.foldl_cons, h1, ih pre d]
      simp [collapseAfter]
    · have h1 : addDigit (pre ++ [a]) d = (pre ++ [a]) ++ [d] := by
        simp [addDigit, List.getLast?_concat, Ne.symm hd]
      rw [List.foldl_cons, h1, ih (pre ++ [a]) d]
      rw [collapseAfter, if_neg hd]
      simp

theorem foldl_addDigit_nil (ds : List Char) :
    ds.foldl addDigit [] = collapseDups ds := by
  cases ds with
  | nil => rfl
  | cons d ds =>
    have h0 : addDigit [] d = [] ++ [d] := by simp [addDigit]
    rw [List.foldl_cons, h0, foldl_addDigit_concat ds [] d]
    simp [collapseDups]

/-- C7: for every input string and requested length, `soundex` equals the
spec's §4.3 procedure (uppercase, map A–Z through the digit table, collapse
consecutive duplicates, replace the first digit with the first alphabetic
character, delete the zeros, right-pad and truncate), and the returned
string has length exactly the requested length. -/
theorem soundex_matches_spec (s : String) (L : ℕ) :
    soundex s L = soundexSpec s L ∧ (soundex s L).length = L := by
  constructor
  · unfold soundex soundexSpec
    rw [soundexLoop_eq]
    have hf : ((pyUpper s.data).filter isUpperAZ).foldl (fun t c => addDigit t (soundexDigit c)) [] =
        collapseDups (((pyUpper s.data).filter isUpperAZ).map soundexDigit) := by
      rw [← List.foldl_map, foldl_addDigit_nil]
    rw [hf]
    cases h : (pyUpper s.data).filter isUpperAZ with
    | nil => simp [collapseDups]
    | cons c t => simp [collapseDups]
  · unfold soundex
    have : ∀ l : List Char, (String.mk ((l ++ List.replicate L '0').take L)).length = L := by
      intro l
      show ((l ++ List.replicate L '0').take L).length = L
      rw [List.length_take, List.length_append, List.length_replicate]
      exact Nat.min_eq_left (Nat.le_add_left L l.length)
    exact this _

/-! ### C9: idempotence of the unicode fold -/

/-- Soundness of the decomposition-table model (true of the real Unicode NFD
table): every character a decomposition produces is either a combining mark
or is itself fully decomposed and not a mark. -/
theorem nfdDecompose_sound (c d : Char) (hd : d ∈ nfdDecompose c) :
    isMn d = true ∨ (nfdDecompose d = [d] ∧ isMn d = false) := by
  unfold nfdDecompose at hd
  split_ifs at hd with h1 h2 h3 h4 h5
  · rcases List.mem_pair.mp hd with h | h <;> subst h
    · right; exact ⟨by decide, by decide⟩
    · left; decide
  · rcases List.mem_pair.mp hd with h | h <;> subst h
    · right; exact ⟨by decide, by decide⟩
    · left; decide
  · rcases List.mem_pair.mp hd with h | h <;> subst h
    · right; exact ⟨by decide, by decide⟩
    · left; decide
  · rcases List.mem_pair.mp hd with h | h <;> subst h
    · right; exact ⟨by decide, by decide⟩
    · left; decide
  · rcases List.mem_pair.mp hd with h | h <;> subst h
    · right; exact ⟨by decide, by decide⟩
    · left; decide
  · rcases List.mem_singleton.mp hd with h
    subst h
    rcases Bool.eq_false_or_eq_true (isMn d) with h | h
    · left
      exact h
    · right
      refine ⟨?_, h⟩
      simp [nfdDecompose, h1, h2, h3, h4, h5]

/-- Every character of a (nonempty-input) fold result is fully decomposed and
not a combining mark. -/
theorem decode_unicode_chars {s : List Char} {c : Char} (h : c ∈ decode_unicode s) :
    nfdDecompose c = [c] ∧ isMn c = false := by
  unfold decode_unicode at h
  by_cases hs : s = []
  · rw [if_pos hs, hs] at h
    exact absurd h (List.not_mem_nil c)
  · rw [if_neg hs] at h
    have hmem := List.mem_filter.mp h
    have hmn : isMn c = false := by
      have := hmem.2
      simpa using this
    rcases List.mem_flatMap.mp hmem.1 with ⟨c', _, hc'⟩
    rcases nfdDecompose_sound c' c hc' with h | h
    · rw [h] at hmn; cases hmn
    · exact h

theorem flatMap_eq_self_of_singleton {t : List Char}
    (h : ∀ c ∈ t, nfdDecompose c = [c]) : t.flatMap nfdDecompose = t := by
  induction t with
  | nil => rfl
  | cons c t ih =>
    rw [List.flatMap_cons, h c (List.mem_cons_self c t),
      ih (fun d hd => h d (List.mem_cons_of_mem c hd))]
    rfl

/-- C9: the unicode fold is idempotent, and folds the empty string to the
empty string. -/
theorem decode_unicode_idempotent (s : List Char) :
    decode_unicode (decode_unicode s) = decode_unicode s ∧
      decode_unicode ([] : List Char) = [] := by
  refine ⟨?_, rfl⟩
  by_cases ht : decode_unicode s = []
  · rw [ht]; rfl
  · have hchars := fun c hc => decode_unicode_chars (s := s) (c := c) hc
    generalize hts : decode_unicode s = t at ht hchars ⊢
    rw [decode_unicode, if_neg ht]
    rw [flatMap_eq_self_of_singleton (fun c hc => (hchars c hc).1)]
    exact List.filter_eq_self.mpr (fun c hc => by simp [(hchars c hc).2])

/-! ### Partitioner invariants (C10, C1) -/

theorem foldl_invariant {α β : Type _} {P : α → Prop} {step : α → β → α} :
    ∀ {l : List β} {init : α}, P init → (∀ s b, b ∈ l → P s → P (step s b)) →
      P (l.foldl step init) := by
  intro l
  induction l with
  | nil => intro init h _; exact h
  | cons b t ih =>
    intro init h hs
    exact ih (hs init b (List.mem_cons_self b t) h)
      (fun s b' hb' => hs s b' (List.mem_cons_of_mem b hb'))

theorem mem_sortedIds {s : Finset ℕ} {n : ℕ} : n ∈ sortedIds s ↔ n ∈ s := by
  unfold sortedIds
  constructor
  · intro h
    have := List.mem_filter.mp h
    simpa using this.2
  · intro h
    refine List.mem_filter.mpr ⟨List.mem_range.mpr ?_, by simpa using h⟩
    exact Nat.lt_succ_of_le (Finset.le_sup (f := id) h)

/-- The updated entry's id set is contained in the old one plus `one_dup`. -/
theorem processEntry_fst_subset (order : Finset ℕ → List ℕ) (one_dup : ℕ)
    (X : Finset ℕ) (e : Finset ℕ × Option ℕ) :
    (processEntry order one_dup X e).1.1 ⊆ e.1 ∪ {one_dup} := by
  unfold processEntry
  split_ifs with h1 h2
  · exact Finset.union_subset_union (Finset.sdiff_subset) (Finset.Subset.refl _)
  · exact Finset.union_subset_union (Finset.sdiff_subset) (Finset.Subset.refl _)
  · exact Finset.subset_union_left

/-- Shape of the appended sibling partitions. -/
theorem mem_processEntry_snd {order : Finset ℕ → List ℕ} {one_dup : ℕ}
    {X : Finset ℕ} {e : Finset ℕ × Option ℕ} {p : Finset ℕ × Option ℕ}
    (hp : p ∈ (processEntry order one_dup X e).2) :
    ∃ nd, one_dup < nd ∧ nd ∈ e.1 ∧
      p = (((e.1 \ X) \ {one_dup}) ∪ {nd}, some nd) := by
  unfold processEntry at hp
  split_ifs at hp with h1 h2
  · exact absurd hp (List.not_mem_nil p)
  · unfold siblingAppends at hp
    rcases List.mem_map.mp hp with ⟨nd, hnd, hpe⟩
    have hcond := (List.mem_filter.mp hnd).2
    have h3 : one_dup < nd ∧ nd ∈ e.1 := by
      constructor
      · exact of_decide_eq_true (Bool.and_elim_left hcond)
      · exact of_decide_eq_true (Bool.and_elim_right hcond)
    exact ⟨nd, h3.1, h3.2, hpe.symm⟩
  · exact absurd hp (List.not_mem_nil p)

/-- Case analysis for membership in one outer-loop iteration's result. -/
theorem mem_processDup {order : Finset ℕ → List ℕ} {E : ExemptionsMap}
    {entries : List (Finset ℕ × Option ℕ)} {d : ℕ} {e : Finset ℕ × Option ℕ}
    (he : e ∈ processDup order E entries d) :
    e ∈ entries ∨
      ∃ e' ∈ entries, e = (processEntry order d (E.sets d) e').1 ∨
        e ∈ (processEntry order d (E.sets d) e').2 := by
  unfold processDup at he
  split_ifs at he with hd
  · rcases List.mem_append.mp he with h | h
    · rcases List.mem_map.mp h with ⟨e', he', hpe⟩
      exact Or.inr ⟨e', he', Or.inl hpe.symm⟩
    · rcases List.mem_flatMap.mp h with ⟨e', he', hel⟩
      exact Or.inr ⟨e', he', Or.inr hel⟩
  · exact Or.inl he

/-- Every id in any partition of any interim state came from the sorted input
list. -/
theorem partition_states_subset (order : Finset ℕ → List ℕ) (E : ExemptionsMap)
    (ds : List ℕ) :
    ∀ e ∈ partitionResults order E ds, e.1 ⊆ ds.toFinset := by
  unfold partitionResults
  refine foldl_invariant
    (P := fun entries : List (Finset ℕ × Option ℕ) => ∀ e ∈ entries, e.1 ⊆ ds.toFinset)
    (by
      intro e he
      rcases List.mem_singleton.mp he with h
      subst h
      exact Finset.Subset.refl _)
    (by
      intro s d hd hP e he
      rcases mem_processDup he with h | ⟨e', he', h | h⟩
      · exact hP e h
      · subst h
        refine (processEntry_fst_subset order d (E.sets d) e').trans ?_
        refine Finset.union_subset (hP e' he') ?_
        simpa using List.mem_toFinset.mpr hd
      · rcases mem_processEntry_snd h with ⟨nd, _, hnd, hpe⟩
        subst hpe
        refine Finset.union_subset ?_ ?_
        · exact (Finset.sdiff_subset.trans Finset.sdiff_subset).trans (hP e' he')
        · simpa using (hP e' he') hnd)

/-- C10: every element of every sub-list returned by
`_partition_using_exemptions` occurs in the input list `data_items`; ids that
occur only in exemption sets never appear in the output. -/
theorem partition_output_ids_from_input (data_items : List ℕ) (E : ExemptionsMap) :
    ∀ l ∈ partitionUsingExemptions data_items E, ∀ x ∈ l, x ∈ data_items := by
  intro l hl x hx
  unfold partitionUsingExemptions partitionUsingExemptionsWith at hl
  have hl2 := (List.perm_insertionSort (fun a b => lexLe a b = true) _).mem_iff.mp hl
  rcases List.mem_map.mp hl2 with ⟨e, he, hle⟩
  have he2 := List.mem_filter.mp he
  have hsub := partition_states_subset setOrder E
    (data_items.insertionSort (· ≤ ·)) e he2.1
  have hx2 : x ∈ e.1 := mem_sortedIds.mp (hle ▸ hx)
  have hx3 := List.mem_toFinset.mp (hsub hx2)
  exact (List.perm_insertionSort (· ≤ ·) data_items).mem_iff.mp hx3

/-! ### C1: exemption safety -/

theorem processEntry_fst (order : Finset ℕ → List ℕ) (d : ℕ) (X : Finset ℕ)
    (e : Finset ℕ × Option ℕ) :
    (processEntry order d X e).1 = if d ∈ e.1 then ((e.1 \ X) ∪ {d}, e.2) else e := by
  unfold processEntry
  split_ifs <;> rfl

theorem mem_processDup_dom {order : Finset ℕ → List ℕ} {E : ExemptionsMap}
    {entries : List (Finset ℕ × Option ℕ)} {d : ℕ} {e : Finset ℕ × Option ℕ}
    (hd : d ∈ E.dom) (he : e ∈ processDup order E entries d) :
    ∃ e' ∈ entries, e = (processEntry order d (E.sets d) e').1 ∨
      e ∈ (processEntry order d (E.sets d) e').2 := by
  unfold processDup at he
  rw [if_pos hd] at he
  rcases List.mem_append.mp he with h | h
  · rcases List.mem_map.mp h with ⟨e', he', hpe⟩
    exact ⟨e', he', Or.inl hpe.symm⟩
  · rcases List.mem_flatMap.mp h with ⟨e', he', hel⟩
    exact ⟨e', he', Or.inr hel⟩

/-- Processing the exempt id `y` itself leaves no partition containing both
`x` and `y`: `y`'s partitions lose all of `E[y]` (so `x`), and the appended
siblings lose `y`. -/
theorem pair_free_after_y (order : Finset ℕ → List ℕ) (E : ExemptionsMap)
    {x y : ℕ} (hxy : x ≠ y) (hx : y ∈ E.sets x)
    (hsym : ∀ a b, a ∈ E.sets b → b ∈ E.sets a)
    (entries : List (Finset ℕ × Option ℕ)) :
    ∀ e ∈ processDup order E entries y, ¬(x ∈ e.1 ∧ y ∈ e.1) := by
  have hyx : x ∈ E.sets y := hsym y x hx
  have hdom : y ∈ E.dom := by
    by_contra h
    rw [E.sets_dom y h] at hyx
    exact absurd hyx (Finset.not_mem_empty x)
  intro e he
  rcases mem_processDup_dom hdom he with ⟨e', _, hcase | hcase⟩
  · rw [processEntry_fst] at hcase
    by_cases hy : y ∈ e'.1
    · rw [if_pos hy] at hcase
      subst hcase
      rintro ⟨hxe, -⟩
      rcases Finset.mem_union.mp hxe with h | h
      · exact absurd hyx (Finset.mem_sdiff.mp h).2
      · exact hxy (Finset.mem_singleton.mp h)
    · rw [if_neg hy] at hcase
      subst hcase
      rintro ⟨-, hye⟩
      exact hy hye
  · rcases mem_processEntry_snd hcase with ⟨nd, hlt, -, hpe⟩
    subst hpe
    rintro ⟨-, hye⟩
    rcases Finset.mem_union.mp hye with h | h
    · exact (Finset.mem_sdiff.mp h).2 (Finset.mem_singleton.mpr rfl)
    · rw [Finset.mem_singleton.mp h] at hlt
      exact Nat.lt_irrefl nd hlt

/-- Once no partition contains both `x` and `y`, no later iteration
reintroduces the pair. -/
theorem pair_free_step (order : Finset ℕ → List ℕ) (E : ExemptionsMap)
    {x y : ℕ} (hxy : x ≠ y) (hx : y ∈ E.sets x)
    (hsym : ∀ a b, a ∈ E.sets b → b ∈ E.sets a)
    (entries : List (Finset ℕ × Option ℕ)) (d : ℕ)
    (hP : ∀ e ∈ entries, ¬(x ∈ e.1 ∧ y ∈ e.1)) :
    ∀ e ∈ processDup order E entries d, ¬(x ∈ e.1 ∧ y ∈ e.1) := by
  intro e he
  rcases mem_processDup he with h | ⟨e', he', hcase | hcase⟩
  · exact hP e h
  · rw [processEntry_fst] at hcase
    by_cases hd : d ∈ e'.1
    · rw [if_pos hd] at hcase
      subst hcase
      rintro ⟨hxe, hye⟩
      rcases Finset.mem_union.mp hxe with h1 | h1 <;>
        rcases Finset.mem_union.mp hye with h2 | h2
      · exact hP e' he' ⟨(Finset.mem_sdiff.mp h1).1, (Finset.mem_sdiff.mp h2).1⟩
      · rw [Finset.mem_singleton.mp h2] at hx
        exact (Finset.mem_sdiff.mp h1).2 (hsym d x hx)
      · rw [Finset.mem_singleton.mp h1] at hx
        exact (Finset.mem_sdiff.mp h2).2 hx
      · exact hxy ((Finset.mem_singleton.mp h1).trans (Finset.mem_singleton.mp h2).symm)
    · rw [if_neg hd] at hcase
      subst hcase
      exact hP e he'
  · rcases mem_processEntry_snd hcase with ⟨nd, -, hnd, hpe⟩
    subst hpe
    rintro ⟨hxe, hye⟩
    have hsub : ((e'.1 \ E.sets d) \ {d}) ⊆ e'.1 :=
      Finset.sdiff_subset.trans Finset.sdiff_subset
    rcases Finset.mem_union.mp hxe with h1 | h1 <;>
      rcases Finset.mem_union.mp hye with h2 | h2
    · exact hP e' he' ⟨hsub h1, hsub h2⟩
    · rw [← Finset.mem_singleton.mp h2] at hnd
      exact hP e' he' ⟨hsub h1, hnd⟩
    · rw [← Finset.mem_singleton.mp h1] at hnd
      exact hP e' he' ⟨hnd, hsub h2⟩
    · exact hxy ((Finset.mem_singleton.mp h1).trans (Finset.mem_singleton.mp h2).symm)

/-- After the whole loop over a list containing `y`, no partition contains
both `x` and `y`. -/
theorem pair_free_fold (order : Finset ℕ → List ℕ) (E : ExemptionsMap)
    {x y : ℕ} (hxy : x ≠ y) (hx : y ∈ E.sets x)
    (hsym : ∀ a b, a ∈ E.sets b → b ∈ E.sets a) :
    ∀ (l : List ℕ) (s : List (Finset ℕ × Option ℕ)), y ∈ l →
      ∀ e ∈ l.foldl (processDup order E) s, ¬(x ∈ e.1 ∧ y ∈ e.1) := by
  intro l
  induction l with
  | nil =>
    intro s hy
    exact absurd hy (List.not_mem_nil y)
  | cons b t ih =>
    intro s hy
    rcases List.mem_cons.mp hy with h | h
    · subst h
      rw [List.foldl_cons]
      exact foldl_invariant (pair_free_after_y order E hxy hx hsym s)
        (fun s' d _ hP => pair_free_step order E hxy hx hsym s' d hP)
    · rw [List.foldl_cons]
      exact ih (processDup order E s b) h

/-- Membership in the partitioner's output, unfolded to the loop state. -/
theorem mem_partitionWith {order : Finset ℕ → List ℕ} {D : List ℕ} {E : ExemptionsMap}
    {l : List ℕ} (hl : l ∈ partitionUsingExemptionsWith order D E) :
    ∃ e ∈ partitionResults order E (D.insertionSort (· ≤ ·)),
      l = sortedIds e.1 ∧ 1 < e.1.card := by
  unfold partitionUsingExemptionsWith at hl
  have hl2 := (List.perm_insertionSort (fun a b => lexLe a b = true) _).mem_iff.mp hl
  rcases List.mem_map.mp hl2 with ⟨e, he, hle⟩
  have he2 := List.mem_filter.mp he
  exact ⟨e, he2.1, hle.symm, of_decide_eq_true he2.2⟩

/-- Membership in the emitted groups, traced back to a partition of a cleaned
candidate set. -/
theorem mem_assignGroupIds {g : DuplicateGroup} :
    ∀ {gid : ℕ} {l : List (List ℕ)}, g ∈ assignGroupIds gid l →
      ∃ p ∈ l, g.book_ids = p.insertionSort (· ≤ ·) := by
  intro gid l
  induction l generalizing gid with
  | nil => intro hg; cases hg
  | cons p t ih =>
    intro hg
    unfold assignGroupIds at hg
    split_ifs at hg with hp
    · rcases List.mem_cons.mp hg with h | h
      · subst h
        exact ⟨p, List.mem_cons_self p t, rfl⟩
      · rcases ih h with ⟨q, hq, he⟩
        exact ⟨q, List.mem_cons_of_mem p hq, he⟩
    · rcases ih hg with ⟨q, hq, he⟩
      exact ⟨q, List.mem_cons_of_mem p hq, he⟩

/-- C1: for every library, configuration and symmetric exemption map, no
group returned by `find_duplicates` contains a pair of distinct ids `x, y`
with `y ∈ E[x]`; equivalently (via `mem_partitionWith`) every sub-list
produced by `_partition_using_exemptions` is free of such pairs. -/
theorem exemption_safety (db : Db) (titleFn : String → String → String)
    (authorFn : Option (String → String × Option String))
    (includeLanguages sortByTitle : Bool) (bookIds : Option (List ℕ)) (E : ExemptionsMap)
    (hsym : ∀ a b, a ∈ E.sets b → b ∈ E.sets a)
    (g : DuplicateGroup)
    (hg : g ∈ findDuplicates db titleFn authorFn includeLanguages sortByTitle bookIds E)
    (x y : ℕ) (hxg : x ∈ g.book_ids) (hyg : y ∈ g.book_ids) (hxy : x ≠ y) :
    y ∉ E.sets x := by
  intro hyE
  unfold findDuplicates findDuplicatesWith convertToGroupsWith at hg
  rcases mem_assignGroupIds hg with ⟨p, hp, hbook⟩
  rcases List.mem_flatMap.mp hp with ⟨c, -, hpc⟩
  rcases mem_partitionWith hpc with ⟨e, he, hpe, -⟩
  rw [hbook] at hxg hyg
  have hxp : x ∈ e.1 := by
    have := (List.perm_insertionSort (· ≤ ·) p).mem_iff.mp hxg
    exact mem_sortedIds.mp (hpe ▸ this)
  have hyp : y ∈ e.1 := by
    have := (List.perm_insertionSort (· ≤ ·) p).mem_iff.mp hyg
    exact mem_sortedIds.mp (hpe ▸ this)
  have hyds : y ∈ (sortedIds c).insertionSort (· ≤ ·) := by
    have hsub := partition_states_subset setOrder E ((sortedIds c).insertionSort (· ≤ ·)) e he
    exact List.mem_toFinset.mp (hsub hyp)
  exact pair_free_fold setOrder E hxy hyE hsym _ _ hyds e he ⟨hxp, hyp⟩


/-- Witness for `exemption_safety`: the overlap library with exemptions
`{1 ↔ 3}` emits the group `[1, 2]`, and indeed `2 ∉ E[1]`. -/
theorem exemption_safety_witness :
    ((∀ a b, a ∈ exemptions13.sets b → b ∈ exemptions13.sets a) ∧
      ({ group_id := 1, book_ids := [1, 2], match_key := "" } : DuplicateGroup) ∈
        findDuplicates dbOverlap identical_title_match (some identical_authors_match)
          false true none exemptions13 ∧
      (1 : ℕ) ∈ [1, 2] ∧ (2 : ℕ) ∈ [1, 2] ∧ (1 : ℕ) ≠ 2) ∧
    (2 : ℕ) ∉ exemptions13.sets 1 := by
  have hsym : ∀ a b, a ∈ exemptions13.sets b → b ∈ exemptions13.sets a := by
    intro a b hab
    by_cases hb1 : b = 1
    · subst hb1
      have : a = 3 := by simpa [exemptions13] using hab
      subst this
      decide
    · by_cases hb3 : b = 3
      · subst hb3
        have : a = 1 := by simpa [exemptions13, hb1] using hab
        subst this
        decide
      · simp [exemptions13, hb1, hb3] at hab
  refine ⟨⟨hsym, by decide, by decide, by decide, by decide⟩, ?_⟩
  exact exemption_safety dbOverlap identical_title_match (some identical_authors_match)
    false true none exemptions13 hsym
    { group_id := 1, book_ids := [1, 2], match_key := "" } (by decide) 1 2
    (by decide) (by decide) (by decide)

/-- Witness for `partition_output_ids_from_input`: `[1, 2]` is a returned
sub-list for input `[1, 2, 3]` and its element `1` is in the input. -/
theorem partition_output_ids_from_input_witness :
    ([1, 2] ∈ partitionUsingExemptions [1, 2, 3] exemptions13 ∧ (1 : ℕ) ∈ [1, 2]) ∧
      (1 : ℕ) ∈ [1, 2, 3] :=
  ⟨⟨by decide, by decide⟩,
    partition_output_ids_from_input [1, 2, 3] exemptions13 [1, 2] (by decide) 1 (by decide)⟩

/-! ### C3: subset pruning -/

/-- Counterexample to C3 as stated: with exemptions `{1 ↔ 3}` the overlap
library yields the groups `[1,2]`, `[2,3]`, `[1,2,4]`, and `[1,2]` is a
proper subset of `[1,2,4]` — the exemption partitioner re-creates proper
subsets after `_clean_dup_groups` has pruned. -/
theorem subset_pruning_counterexample :
    ((findDuplicates dbOverlap identical_title_match (some identical_authors_match)
        false true none exemptions13).map (fun g => g.book_ids)) =
      [[1, 2], [2, 3], [1, 2, 4]] ∧
    ∃ g1 ∈ findDuplicates dbOverlap identical_title_match (some identical_authors_match)
        false true none exemptions13,
      ∃ g2 ∈ findDuplicates dbOverlap identical_title_match (some identical_authors_match)
        false true none exemptions13,
        g1.book_ids.toFinset ⊂ g2.book_ids.toFinset := by
  refine ⟨by decide, by decide⟩

theorem cleanAux_sublist : ∀ l : List (Finset ℕ), List.Sublist (cleanAux l) l := by
  intro l
  induction l with
  | nil => exact List.Sublist.refl []
  | cons a rest ih =>
    unfold cleanAux
    split_ifs
    · exact ih.cons a
    · exact ih.cons₂ a

/-- On a size-ascending list, the retained sets are pairwise incomparable
under the proper-subset order. -/
theorem cleanAux_pairwise {l : List (Finset ℕ)}
    (hsorted : l.Pairwise (fun a b => a.card ≤ b.card)) :
    (cleanAux l).Pairwise (fun a b => ¬ a ⊂ b ∧ ¬ b ⊂ a) := by
  induction l with
  | nil => exact List.Pairwise.nil
  | cons a rest ih =>
    rcases List.pairwise_cons.mp hsorted with ⟨ha, hrest⟩
    unfold cleanAux
    split_ifs with hany
    · exact ih hrest
    · refine List.Pairwise.cons ?_ (ih hrest)
      intro b hb
      have hbr : b ∈ rest := (cleanAux_sublist rest).subset hb
      constructor
      · intro hab
        exact hany (List.any_eq_true.mpr ⟨b, hbr, decide_eq_true hab.subset⟩)
      · intro hba
        exact absurd (ha b hbr) (not_le_of_lt (Finset.card_lt_card hba))

theorem cleanAux_no_ssubset {l : List (Finset ℕ)}
    (hsorted : l.Pairwise (fun a b => a.card ≤ b.card)) :
    ∀ a ∈ cleanAux l, ∀ b ∈ cleanAux l, ¬ a ⊂ b := by
  intro a ha b hb
  by_cases hab : a = b
  · subst hab
    exact fun h => absurd h (ssubset_irrefl a)
  · exact ((cleanAux_pairwise hsorted).forall
      (fun u v huv => ⟨huv.2, huv.1⟩) ha hb hab).1

theorem sortedIds_sorted (s : Finset ℕ) : List.Sorted (· ≤ ·) (sortedIds s) := by
  unfold sortedIds
  exact ((List.sorted_lt_range _).sublist (List.filter_sublist _)).imp le_of_lt

theorem sortedIds_toFinset (s : Finset ℕ) : (sortedIds s).toFinset = s := by
  ext n
  rw [List.mem_toFinset]
  exact mem_sortedIds

theorem foldl_processDup_empty (order : Finset ℕ → List ℕ) :
    ∀ (l : List ℕ) (s : List (Finset ℕ × Option ℕ)),
      l.foldl (processDup order emptyExemptions) s = s := by
  intro l
  induction l with
  | nil => intro s; rfl
  | cons d t ih =>
    intro s
    rw [List.foldl_cons]
    have h : processDup order emptyExemptions s d = s := by
      unfold processDup
      rw [if_neg]
      exact Finset.not_mem_empty d
    rw [h]
    exact ih s

/-- With no exemptions, the partitioner returns the candidate set unchanged
(as a single sorted sub-list) whenever it has at least two members. -/
theorem partition_empty_exemptions (order : Finset ℕ → List ℕ) (c : Finset ℕ)
    (hc : 2 ≤ c.card) :
    partitionUsingExemptionsWith order (sortedIds c) emptyExemptions = [sortedIds c] := by
  unfold partitionUsingExemptionsWith partitionResults
  rw [(sortedIds_sorted c).insertionSort_eq, foldl_processDup_empty, sortedIds_toFinset]
  have h1 : decide (1 < c.card) = true := decide_eq_true (lt_of_lt_of_le one_lt_two hc)
  simp only [List.filter_cons, List.filter_nil, h1, if_pos, List.map_cons, List.map_nil]
  rfl

theorem flatMap_partition_empty (order : Finset ℕ → List ℕ) :
    ∀ (l : List (Finset ℕ)), (∀ c ∈ l, 2 ≤ c.card) →
      l.flatMap (fun c => partitionUsingExemptionsWith order (sortedIds c) emptyExemptions) =
        l.map sortedIds := by
  intro l
  induction l with
  | nil => intro _; rfl
  | cons c t ih =>
    intro h
    rw [List.flatMap_cons, partition_empty_exemptions order c (h c (List.mem_cons_self c t)),
      ih (fun d hd => h d (List.mem_cons_of_mem c hd))]
    rfl

theorem sortCandidateGroups_perm (m : List (String × Finset ℕ)) (b : Bool) :
    List.Perm (sortCandidateGroups m b) m := by
  unfold sortCandidateGroups
  split_ifs <;> exact List.perm_insertionSort _ _

theorem shrink_card {m : List (String × Finset ℕ)} :
    ∀ e ∈ shrinkCandidatesMap m, 2 ≤ e.2.card := by
  intro e he
  exact of_decide_eq_true (List.mem_filter.mp he).2

/-- Every cleaned candidate set of a shrunk-and-sorted map has ≥ 2 members. -/
theorem cleanDupGroups_card {m : List (String × Finset ℕ)}
    (hm : ∀ e ∈ m, 2 ≤ e.2.card) : ∀ c ∈ cleanDupGroups m, 2 ≤ c.card := by
  intro c hc
  unfold cleanDupGroups at hc
  have h1 := (cleanAux_sublist _).subset hc
  have h2 : c ∈ m.map (fun e => e.2) :=
    (List.perm_insertionSort (fun a b : Finset ℕ => a.card ≤ b.card) _).mem_iff.mp h1
  rcases List.mem_map.mp h2 with ⟨e, he, hce⟩
  exact hce ▸ hm e he

/-- The cleaned candidate list is pairwise free of proper inclusions. -/
theorem cleanDupGroups_no_ssubset (m : List (String × Finset ℕ)) :
    ∀ a ∈ cleanDupGroups m, ∀ b ∈ cleanDupGroups m, ¬ a ⊂ b := by
  haveI : IsTotal (Finset ℕ) (fun a b => a.card ≤ b.card) := ⟨fun a b => Nat.le_total _ _⟩
  haveI : IsTrans (Finset ℕ) (fun a b => a.card ≤ b.card) :=
    ⟨fun _ _ _ h1 h2 => le_trans h1 h2⟩
  exact cleanAux_no_ssubset (List.sorted_insertionSort _ _)

/-- C3 amended: with an *empty* exemption map, no returned group's id set is
a proper subset of another returned group's id set (the counterexample shows
a nonempty exemption map can re-create proper subsets after pruning). -/
theorem subset_pruning_no_exemptions (db : Db) (titleFn : String → String → String)
    (authorFn : Option (String → String × Option String))
    (includeLanguages sortByTitle : Bool) (bookIds : Option (List ℕ))
    (g1 g2 : DuplicateGroup)
    (hg1 : g1 ∈ findDuplicates db titleFn authorFn includeLanguages sortByTitle bookIds
      emptyExemptions)
    (hg2 : g2 ∈ findDuplicates db titleFn authorFn includeLanguages sortByTitle bookIds
      emptyExemptions) :
    ¬ g1.book_ids.toFinset ⊂ g2.book_ids.toFinset := by
  unfold findDuplicates findDuplicatesWith convertToGroupsWith at hg1 hg2
  have hcard := cleanDupGroups_card
    (m := sortCandidateGroups (shrinkCandidatesMap
      (findTitleAuthorCandidates db (candidateBookIds db bookIds)
        titleFn authorFn includeLanguages)) sortByTitle)
    (fun e he => shrink_card e ((sortCandidateGroups_perm _ _).mem_iff.mp he))
  rw [flatMap_partition_empty setOrder _ hcard] at hg1 hg2
  rcases mem_assignGroupIds hg1 with ⟨p1, hp1, hb1⟩
  rcases mem_assignGroupIds hg2 with ⟨p2, hp2, hb2⟩
  rcases List.mem_map.mp hp1 with ⟨c1, hc1, hpc1⟩
  rcases List.mem_map.mp hp2 with ⟨c2, hc2, hpc2⟩
  have hset1 : g1.book_ids.toFinset = c1 := by
    rw [hb1, ← hpc1, (sortedIds_sorted c1).insertionSort_eq, sortedIds_toFinset]
  have hset2 : g2.book_ids.toFinset = c2 := by
    rw [hb2, ← hpc2, (sortedIds_sorted c2).insertionSort_eq, sortedIds_toFinset]
  rw [hset1, hset2]
  exact cleanDupGroups_no_ssubset _ c1 hc1 c2 hc2

/-- Witness for `subset_pruning_no_exemptions` on the overlap library. -/
theorem subset_pruning_no_exemptions_witness :
    (({ group_id := 1, book_ids := [1, 2, 3], match_key := "" } : DuplicateGroup) ∈
        findDuplicates dbOverlap identical_title_match (some identical_authors_match)
          false true none emptyExemptions ∧
      ({ group_id := 2, book_ids := [1, 2, 4], match_key := "" } : DuplicateGroup) ∈
        findDuplicates dbOverlap identical_title_match (some identical_authors_match)
          false true none emptyExemptions) ∧
    ¬ ([1, 2, 3] : List ℕ).toFinset ⊂ ([1, 2, 4] : List ℕ).toFinset := by
  refine ⟨⟨by decide, by decide⟩, ?_⟩
  exact subset_pruning_no_exemptions dbOverlap identical_title_match
    (some identical_authors_match) false true none
    { group_id := 1, book_ids := [1, 2, 3], match_key := "" }
    { group_id := 2, book_ids := [1, 2, 4], match_key := "" }
    (by decide) (by decide)

/-! ### C2: at-most-one-group -/

/-- Counterexample to C2 as stated: with *no* exemptions (so the exemption
partitioner never duplicates anything), the overlap library produces the two
groups `[1,2,3]` and `[1,2,4]`, and book 1 appears in both — a book with two
authors lands under two match keys whose candidate groups are incomparable
and both survive pruning. -/
theorem at_most_one_group_counterexample :
    ((findDuplicates dbOverlap identical_title_match (some identical_authors_match)
        false true none emptyExemptions).map (fun g => g.book_ids)) = [[1, 2, 3], [1, 2, 4]] ∧
    (findDuplicates dbOverlap identical_title_match (some identical_authors_match)
        false true none emptyExemptions).countP (fun g => decide ((1 : ℕ) ∈ g.book_ids)) = 2 := by
  refine ⟨by decide, by decide⟩

theorem addCandidate_inv {R : String → ℕ → Prop} {m : List (String × Finset ℕ)}
    {key : String} {b : ℕ}
    (hm : ∀ e ∈ m, ∀ x ∈ e.2, R e.1 x) (hb : R key b) :
    ∀ e ∈ addCandidate m key b, ∀ x ∈ e.2, R e.1 x := by
  intro e he x hx
  unfold addCandidate at he
  split_ifs at he with hany
  · rcases List.mem_map.mp he with ⟨e', he', hee⟩
    by_cases hk : e'.1 = key
    · rw [if_pos hk] at hee
      subst hee
      rcases Finset.mem_insert.mp hx with h | h
      · subst h
        rw [hk]
        exact hb
      · exact hm e' he' x h
    · rw [if_neg hk] at hee
      subst hee
      exact hm e' he' x hx
  · rcases List.mem_append.mp he with h | h
    · exact hm e h x hx
    · have he2 := List.mem_singleton.mp h
      subst he2
      rw [Finset.mem_singleton.mp hx]
      exact hb

theorem addCandidate_keys {m : List (String × Finset ℕ)} {key : String} {b : ℕ}
    (hm : m.Pairwise (fun e1 e2 => e1.1 ≠ e2.1)) :
    (addCandidate m key b).Pairwise (fun e1 e2 => e1.1 ≠ e2.1) := by
  unfold addCandidate
  split_ifs with hany
  · rw [List.pairwise_map]
    have hfst : ∀ e : String × Finset ℕ,
        ((if e.1 = key then (e.1, insert b e.2) else e) : String × Finset ℕ).1 = e.1 := by
      intro e
      split_ifs <;> rfl
    exact hm.imp (by
      intro e1 e2 h
      rw [hfst e1, hfst e2]
      exact h)
  · rw [List.pairwise_append]
    refine ⟨hm, List.pairwise_singleton _ _, ?_⟩
    intro e he e' he'
    rw [List.mem_singleton.mp he']
    intro hek
    exact hany (List.any_eq_true.mpr ⟨e, he, decide_eq_true hek⟩)

/-- `candidateStep` under the `ignore` author policy. -/
theorem candidateStep_none (db : Db) (titleFn : String → String → String)
    (includeLanguages : Bool) (m : List (String × Finset ℕ)) (b : ℕ) :
    candidateStep db titleFn none includeLanguages m b =
      if db.title b = "" then m
      else addCandidate m (candidateKey db titleFn includeLanguages b) b := rfl

/-- With the `ignore` author policy the candidate map satisfies: each entry's
set holds only books whose title key is that entry's key, and keys are
pairwise distinct. -/
theorem candidates_ignore_inv (db : Db) (titleFn : String → String → String)
    (includeLanguages : Bool) (ids : List ℕ) :
    (∀ e ∈ findTitleAuthorCandidates db ids titleFn none includeLanguages,
        ∀ x ∈ e.2, e.1 = candidateKey db titleFn includeLanguages x) ∧
      (findTitleAuthorCandidates db ids titleFn none includeLanguages).Pairwise
        (fun e1 e2 => e1.1 ≠ e2.1) := by
  unfold findTitleAuthorCandidates
  refine foldl_invariant (P := fun m : List (String × Finset ℕ) =>
    (∀ e ∈ m, ∀ x ∈ e.2, e.1 = candidateKey db titleFn includeLanguages x) ∧
      m.Pairwise (fun e1 e2 => e1.1 ≠ e2.1)) ⟨?_, List.Pairwise.nil⟩ ?_
  · intro e he
    exact absurd he (List.not_mem_nil e)
  · intro m b _ hP
    rw [candidateStep_none]
    split_ifs with ht
    · exact hP
    · exact ⟨addCandidate_inv
        (R := fun k x => k = candidateKey db titleFn includeLanguages x) hP.1 rfl,
        addCandidate_keys hP.2⟩

/-- With the `ignore` author policy the candidate sets are pairwise
disjoint: no book appears in two entries. -/
theorem candidates_ignore_disjoint (db : Db) (titleFn : String → String → String)
    (includeLanguages : Bool) (ids : List ℕ) :
    (findTitleAuthorCandidates db ids titleFn none includeLanguages).Pairwise
      (fun e1 e2 => ∀ x, x ∈ e1.2 → x ∈ e2.2 → False) := by
  rcases candidates_ignore_inv db titleFn includeLanguages ids with ⟨hinv, hkeys⟩
  refine hkeys.imp_of_mem ?_
  intro e1 e2 he1 he2 hne x hx1 hx2
  exact hne ((hinv e1 he1 x hx1).trans (hinv e2 he2 x hx2).symm)

/-- Pairwise disjointness survives shrink, sort and subset pruning. -/
theorem cleanDupGroups_disjoint (db : Db) (titleFn : String → String → String)
    (includeLanguages sortByTitle : Bool) (ids : List ℕ) :
    (cleanDupGroups (sortCandidateGroups
        (shrinkCandidatesMap (findTitleAuthorCandidates db ids titleFn none includeLanguages))
        sortByTitle)).Pairwise (fun c1 c2 => ∀ x, x ∈ c1 → x ∈ c2 → False) := by
  have h0 := candidates_ignore_disjoint db titleFn includeLanguages ids
  have h1 := h0.filter (fun e => decide (2 ≤ e.2.card))
  have h2 : (sortCandidateGroups
      (shrinkCandidatesMap (findTitleAuthorCandidates db ids titleFn none includeLanguages))
      sortByTitle).Pairwise (fun e1 e2 => ∀ x, x ∈ e1.2 → x ∈ e2.2 → False) :=
    ((sortCandidateGroups_perm _ _).pairwise_iff (fun h x hx1 hx2 => h x hx2 hx1)).mpr h1
  have h3 : ((sortCandidateGroups
      (shrinkCandidatesMap (findTitleAuthorCandidates db ids titleFn none includeLanguages))
      sortByTitle).map (fun e => e.2)).Pairwise (fun c1 c2 => ∀ x, x ∈ c1 → x ∈ c2 → False) :=
    List.pairwise_map.mpr h2
  have h4 := ((List.perm_insertionSort
      (fun a b : Finset ℕ => a.card ≤ b.card) _).pairwise_iff
      (fun h x hx1 hx2 => h x hx2 hx1)).mpr h3
  exact h4.sublist (cleanAux_sublist _)

theorem assignGroupIds_countP_zero {b : ℕ} :
    ∀ {l : List (List ℕ)} {gid : ℕ}, (∀ q ∈ l, b ∉ q) →
      (assignGroupIds gid l).countP (fun g => decide (b ∈ g.book_ids)) = 0 := by
  intro l gid hl
  rw [List.countP_eq_zero]
  intro g hg
  rcases mem_assignGroupIds hg with ⟨q, hq, hgq⟩
  have hbq : b ∉ q.insertionSort (· ≤ ·) :=
    fun hmem => hl q hq ((List.perm_insertionSort (· ≤ ·) q).mem_iff.mp hmem)
  simp [hgq, hbq]

/-- On a pairwise-disjoint list of partitions, each id is counted in at most
one emitted group. -/
theorem assignGroupIds_countP_le_one {b : ℕ} :
    ∀ {l : List (List ℕ)} {gid : ℕ},
      l.Pairwise (fun p q => ∀ x, x ∈ p → x ∈ q → False) →
      (assignGroupIds gid l).countP (fun g => decide (b ∈ g.book_ids)) ≤ 1 := by
  intro l
  induction l with
  | nil =>
    intro gid _
    simp [assignGroupIds]
  | cons p t ih =>
    intro gid hpw
    rcases List.pairwise_cons.mp hpw with ⟨hp, ht⟩
    unfold assignGroupIds
    split_ifs with hlen
    · rw [List.countP_cons]
      by_cases hb : b ∈ p.insertionSort (· ≤ ·)
    /- if `b` is in the emitted head group it is in no later partition -/
      · have hb' : b ∈ p := (List.perm_insertionSort (· ≤ ·) p).mem_iff.mp hb
        have h0 := @assignGroupIds_countP_zero b t (gid + 1)
          (fun q hq hbq => hp q hq b hb' hbq)
        rw [h0]
        simp [hb]
      · have h1 := @ih (gid + 1) ht
        simp only [hb]
        simpa using h1
    · exact ih ht

/-- C2 amended: in title/author mode with the `ignore` author policy (each
book contributes at most one match key) and an empty exemption map, every
book id appears in at most one returned group.  The counterexample shows the
claim fails as stated once a book can carry several match keys, even with no
exemptions in play. -/
theorem at_most_one_group_ignore_authors (db : Db) (titleFn : String → String → String)
    (includeLanguages sortByTitle : Bool) (bookIds : Option (List ℕ)) (b : ℕ) :
    (findDuplicates db titleFn none includeLanguages sortByTitle bookIds
        emptyExemptions).countP (fun g => decide (b ∈ g.book_ids)) ≤ 1 := by
  unfold findDuplicates findDuplicatesWith convertToGroupsWith
  have hcard := cleanDupGroups_card
    (m := sortCandidateGroups (shrinkCandidatesMap
      (findTitleAuthorCandidates db (candidateBookIds db bookIds) titleFn none
        includeLanguages)) sortByTitle)
    (fun e he => shrink_card e ((sortCandidateGroups_perm _ _).mem_iff.mp he))
  rw [flatMap_partition_empty setOrder _ hcard]
  have hdisj := cleanDupGroups_disjoint db titleFn includeLanguages sortByTitle
    (candidateBookIds db bookIds)
  have hparts : ((cleanDupGroups (sortCandidateGroups (shrinkCandidatesMap
      (findTitleAuthorCandidates db (candidateBookIds db bookIds) titleFn none
        includeLanguages)) sortByTitle)).map sortedIds).Pairwise
      (fun p q => ∀ x, x ∈ p → x ∈ q → False) := by
    rw [List.pairwise_map]
    exact hdisj.imp (fun h x hx1 hx2 => h x (mem_sortedIds.mp hx1) (mem_sortedIds.mp hx2))
  exact assignGroupIds_countP_le_one hparts

/-! ### C4: determinism

The only behavior of `find_duplicates` that CPython does not fix
syntactically is the iteration order over the exemption *set* `ndm_entry`
inside `_partition_using_exemptions` (`for nd in ndm_entry`).  The embedding
is parametric in that order (`validOrder`), and determinism is the statement
that any two valid orders produce identical output for identical library
contents and configuration. -/

theorem flatMap_perm_of_perm {α β : Type _} {f g : α → List β}
    {l1 l2 : List α} (hp : List.Perm l1 l2) (hfg : ∀ a, List.Perm (f a) (g a)) :
    List.Perm (l1.flatMap f) (l2.flatMap g) :=
  (List.Perm.flatMap_left l1 (fun a _ => hfg a)).trans (hp.flatMap_right g)

theorem siblingAppends_perm {o1 o2 : Finset ℕ → List ℕ} (h1 : validOrder o1)
    (h2 : validOrder o2) (d : ℕ) (X res : Finset ℕ) :
    List.Perm (siblingAppends o1 d X res) (siblingAppends o2 d X res) := by
  unfold siblingAppends
  exact (((h1 X).trans (h2 X).symm).filter _).map _

theorem processEntry_fst_order_irrel (o1 o2 : Finset ℕ → List ℕ) (d : ℕ)
    (X : Finset ℕ) (e : Finset ℕ × Option ℕ) :
    (processEntry o1 d X e).1 = (processEntry o2 d X e).1 := by
  unfold processEntry
  split_ifs <;> rfl

theorem processEntry_snd_perm {o1 o2 : Finset ℕ → List ℕ} (h1 : validOrder o1)
    (h2 : validOrder o2) (d : ℕ) (X : Finset ℕ) (e : Finset ℕ × Option ℕ) :
    List.Perm (processEntry o1 d X e).2 (processEntry o2 d X e).2 := by
  unfold processEntry
  split_ifs
  · exact List.Perm.refl _
  · exact siblingAppends_perm h1 h2 d X e.1
  · exact List.Perm.refl _

theorem processDup_perm {o1 o2 : Finset ℕ → List ℕ} (h1 : validOrder o1)
    (h2 : validOrder o2) (E : ExemptionsMap)
    {s1 s2 : List (Finset ℕ × Option ℕ)} (hp : List.Perm s1 s2) (d : ℕ) :
    List.Perm (processDup o1 E s1 d) (processDup o2 E s2 d) := by
  unfold processDup
  split_ifs with hd
  · refine List.Perm.append ?_ ?_
    · have hfun : (fun e => (processEntry o1 d (E.sets d) e).1) =
          (fun e => (processEntry o2 d (E.sets d) e).1) :=
        funext (fun e => processEntry_fst_order_irrel o1 o2 d (E.sets d) e)
      rw [hfun]
      exact hp.map _
    · exact flatMap_perm_of_perm hp (fun e => processEntry_snd_perm h1 h2 d (E.sets d) e)
  · exact hp

theorem foldl_processDup_perm {o1 o2 : Finset ℕ → List ℕ} (h1 : validOrder o1)
    (h2 : validOrder o2) (E : ExemptionsMap) :
    ∀ (l : List ℕ) {s1 s2 : List (Finset ℕ × Option ℕ)}, List.Perm s1 s2 →
      List.Perm (l.foldl (processDup o1 E) s1) (l.foldl (processDup o2 E) s2) := by
  intro l
  induction l with
  | nil => intro s1 s2 hp; exact hp
  | cons d t ih =>
    intro s1 s2 hp
    rw [List.foldl_cons, List.foldl_cons]
    exact ih (processDup_perm h1 h2 E hp d)

theorem lexLe_total : ∀ a b : List ℕ, lexLe a b = true ∨ lexLe b a = true := by
  intro a
  induction a with
  | nil => intro b; left; rfl
  | cons x as ih =>
    intro b
    cases b with
    | nil => right; rfl
    | cons y bs =>
      unfold lexLe
      rcases Nat.lt_trichotomy x y with h | h | h
      · left
        rw [if_pos h]
      · subst h
        simp only [if_neg (Nat.lt_irrefl x)]
        exact ih bs
      · right
        rw [if_pos h]

theorem lexLe_trans : ∀ a b c : List ℕ,
    lexLe a b = true → lexLe b c = true → lexLe a c = true := by
  intro a
  induction a with
  | nil => intro b c _ _; rfl
  | cons x as ih =>
    intro b c hab hbc
    cases b with
    | nil => simp [lexLe] at hab
    | cons y bs =>
      cases c with
      | nil => simp [lexLe] at hbc
      | cons z cs =>
        unfold lexLe at hab hbc ⊢
        by_cases h1 : x < y
        · by_cases h2 : y < z
          · rw [if_pos (Nat.lt_trans h1 h2)]
          · by_cases h3 : z < y
            · rw [if_neg h2, if_pos h3] at hbc
              cases hbc
            · have hyz : y = z := Nat.le_antisymm (Nat.le_of_not_lt h3) (Nat.le_of_not_lt h2)
              subst hyz
              rw [if_pos h1]
        · by_cases h1' : y < x
          · rw [if_neg h1, if_pos h1'] at hab
            cases hab
          · have hxy : x = y := Nat.le_antisymm (Nat.le_of_not_lt h1') (Nat.le_of_not_lt h1)
            subst hxy
            rw [if_neg h1, if_neg h1'] at hab
            by_cases h2 : x < z
            · rw [if_pos h2]
            · by_cases h3 : z < x
              · rw [if_neg h2, if_pos h3] at hbc
                cases hbc
              · rw [if_neg h2, if_neg h3] at hbc ⊢
                exact ih bs cs hab hbc

theorem lexLe_antisymm : ∀ a b : List ℕ,
    lexLe a b = true → lexLe b a = true → a = b := by
  intro a
  induction a with
  | nil =>
    intro b _ hba
    cases b with
    | nil => rfl
    | cons y bs => simp [lexLe] at hba
  | cons x as ih =>
    intro b hab hba
    cases b with
    | nil => simp [lexLe] at hab
    | cons y bs =>
      unfold lexLe at hab hba
      by_cases h1 : x < y
      · rw [if_neg (Nat.lt_asymm h1), if_pos h1] at hba
        cases hba
      · by_cases h2 : y < x
        · rw [if_neg h1, if_pos h2] at hab
          cases hab
        · have hxy : x = y := Nat.le_antisymm (Nat.le_of_not_lt h2) (Nat.le_of_not_lt h1)
          subst hxy
          rw [if_neg h1, if_neg h1] at hab hba
          rw [ih bs hab hba]

/-- The partitioner's output does not depend on the set-iteration order: the
final multiset of partitions is order-independent and the closing sort
canonicalises the sequence. -/
theorem partitionWith_order_irrel {o1 o2 : Finset ℕ → List ℕ} (h1 : validOrder o1)
    (h2 : validOrder o2) (D : List ℕ) (E : ExemptionsMap) :
    partitionUsingExemptionsWith o1 D E = partitionUsingExemptionsWith o2 D E := by
  haveI : IsTotal (List ℕ) (fun a b => lexLe a b = true) := ⟨lexLe_total⟩
  haveI : IsTrans (List ℕ) (fun a b => lexLe a b = true) := ⟨lexLe_trans⟩
  haveI : IsAntisymm (List ℕ) (fun a b => lexLe a b = true) := ⟨lexLe_antisymm⟩
  unfold partitionUsingExemptionsWith partitionResults
  have hp := foldl_processDup_perm h1 h2 E (D.insertionSort (· ≤ ·))
    (List.Perm.refl [((D.insertionSort (· ≤ ·)).toFinset, none)])
  have hp2 := ((hp.filter (fun e => decide (1 < e.1.card))).map (fun e => sortedIds e.1))
  exact List.eq_of_perm_of_sorted
    ((List.perm_insertionSort _ _).trans (hp2.trans (List.perm_insertionSort _ _).symm))
    (List.sorted_insertionSort _ _) (List.sorted_insertionSort _ _)

/-- C4: determinism.  For identical library contents and identical
configuration, `find_duplicates` returns identical group sequences whichever
(valid) set-iteration order CPython happens to use inside the exemption
partitioner — the only internal source of nondeterminism. -/
theorem find_duplicates_deterministic (db : Db) (titleFn : String → String → String)
    (authorFn : Option (String → String × Option String))
    (includeLanguages sortByTitle : Bool) (bookIds : Option (List ℕ)) (E : ExemptionsMap)
    {o1 o2 : Finset ℕ → List ℕ} (h1 : validOrder o1) (h2 : validOrder o2) :
    findDuplicatesWith o1 db titleFn authorFn includeLanguages sortByTitle bookIds E =
      findDuplicatesWith o2 db titleFn authorFn includeLanguages sortByTitle bookIds E := by
  unfold findDuplicatesWith convertToGroupsWith
  have hfun : (fun c => partitionUsingExemptionsWith o1 (sortedIds c) E) =
      (fun c => partitionUsingExemptionsWith o2 (sortedIds c) E) :=
    funext (fun c => partitionWith_order_irrel h1 h2 (sortedIds c) E)
  rw [hfun]

/-- The reverse enumeration order: a second valid model of set iteration. -/
def revOrder (s : Finset ℕ) : List ℕ := (sortedIds s).reverse

theorem setOrder_valid : validOrder setOrder := fun _ => List.Perm.refl _

theorem revOrder_valid : validOrder revOrder := fun s => List.reverse_perm (sortedIds s)

/-- Witness for `find_duplicates_deterministic`: ascending versus descending
exemption-set iteration on a run that actually partitions. -/
theorem find_duplicates_deterministic_witness :
    (validOrder setOrder ∧ validOrder revOrder) ∧
      findDuplicatesWith setOrder dbOverlap identical_title_match
          (some identical_authors_match) false true none exemptions13 =
        findDuplicatesWith revOrder dbOverlap identical_title_match
          (some identical_authors_match) false true none exemptions13 :=
  ⟨⟨setOrder_valid, revOrder_valid⟩,
    find_duplicates_deterministic dbOverlap identical_title_match
      (some identical_authors_match) false true none exemptions13
      setOrder_valid revOrder_valid⟩
